import Mathlib

/-!
Shallow embedding of the File-translation-with-Ollama repository
(`text_slicer.py`, `ollama_client.py`, `translate_with_ollama.py`).

Strings are modelled as `List Char`; Python's byte-oriented primitives
(`len(text.encode("utf-8"))`, `str.strip`, `re.split(r'\n\s*\n', ...)`,
`str.split(sep)`) are translated character by character.  The two scanning
loops (`re.split` and `str.split`) are written with an explicit fuel argument
initialised to the input length; every step of the Python scan consumes at
least one character, so the fuel never runs out on the top-level entry points.
-/

/-- Python strings, modelled as lists of characters. -/
abbrev Str := List Char

/-- Characters of a Lean string literal, used to write concrete documents. -/
def chars (s : String) : Str := s.data

/-- Python's `\s` / `str.strip` whitespace test, restricted to the ASCII
whitespace characters ` `, `\t`, `\n`, `\r`, `\x0b`, `\x0c` (the documents in
this development are ASCII; Unicode whitespace is out of the modelled scope). -/
def pyIsSpace (c : Char) : Bool :=
  c == ' ' || c == '\t' || c == '\n' || c == '\r' || c == '\x0b' || c == '\x0c'

/-- Python `str.strip()`: drop whitespace from both ends. -/
def pyStrip (s : Str) : Str :=
  ((s.dropWhile pyIsSpace).reverse.dropWhile pyIsSpace).reverse

/-- Model of `count_tokens` (text_slicer.py:20-31): `len(text.encode("utf-8")) // 4`. -/
def count_tokens (s : Str) : Nat :=
  (s.map Char.utf8Size).sum / 4

/-- Index of the last occurrence of `c` in a list, if any. -/
def lastIdxOf (c : Char) : Str → Option Nat
  | [] => none
  | a :: rest =>
    match lastIdxOf c rest with
    | some m => some (m + 1)
    | none => if a = c then some 0 else none

/-- Scanner for `re.split(r'\n\s*\n', text)` (text_slicer.py:34-43).
A match starts at a `'\n'` whose following maximal whitespace run contains
another `'\n'`; the greedy `\s*` makes the match end at the last `'\n'` of
that run.  `acc` holds the current piece reversed; `fuel` bounds the number
of scanning steps (each step consumes at least one character, so
`fuel = text.length` suffices and the fuel-exhaustion branch is unreachable
from `split_into_paragraphs`). -/
def splitParasGo : Nat → Str → Str → List Str
  | _, acc, [] => [acc.reverse]
  | 0, acc, rest => [acc.reverse ++ rest]
  | fuel + 1, acc, c :: rest =>
    if c = '\n' then
      match lastIdxOf '\n' (rest.takeWhile pyIsSpace) with
      | some m => acc.reverse :: splitParasGo fuel [] (rest.drop (m + 1))
      | none => splitParasGo fuel (c :: acc) rest
    else splitParasGo fuel (c :: acc) rest

/-- Model of `split_into_paragraphs` (text_slicer.py:34-43): `re.split(r'\n\s*\n', text)`. -/
def split_into_paragraphs (text : Str) : List Str :=
  splitParasGo text.length [] text

/-- Loop of `group_paragraphs` (text_slicer.py:46-92).  `current` is the
pending group (already-stripped paragraphs), `current_len` its running token
sum.  Blank paragraphs flush the pending group and become the group `[""]`;
a paragraph longer than `max_tokens` flushes and becomes its own group. -/
def group_paragraphsAux (max_tokens : Nat) : List Str → List Str → Nat → List (List Str)
  | [], current, _ => if current = [] then [] else [current]
  | para :: rest, current, current_len =>
    let p := pyStrip para
    if p = [] then
      (if current = [] then [] else [current]) ++
        ([[]] :: group_paragraphsAux max_tokens rest [] 0)
    else if max_tokens < count_tokens p then
      (if current = [] then [] else [current]) ++
        ([p] :: group_paragraphsAux max_tokens rest [] 0)
    else if max_tokens < current_len + count_tokens p ∧ current ≠ [] then
      current :: group_paragraphsAux max_tokens rest [p] (count_tokens p)
    else
      group_paragraphsAux max_tokens rest (current ++ [p]) (current_len + count_tokens p)

/-- Model of `group_paragraphs` (text_slicer.py:46-92). -/
def group_paragraphs (paragraphs : List Str) (max_tokens : Nat) : List (List Str) :=
  group_paragraphsAux max_tokens paragraphs [] 0

/-- Python `" ".join(current)` used by `slice_long_paragraph`. -/
def joinSpace : List Str → Str
  | [] => []
  | [s] => s
  | s :: rest => s ++ ' ' :: joinSpace rest

/-- Loop of `slice_long_paragraph` (text_slicer.py:95-133), after the external
`nltk.sent_tokenize` call: it receives the sentence list and greedily
accumulates sentences, flushing `" ".join(current)` when the running token
sum would exceed `target_tokens`; a sentence alone exceeding the budget is
emitted unsplit. -/
def slice_long_paragraphAux (target : Nat) : List Str → List Str → Nat → List Str
  | [], current, _ => if current = [] then [] else [joinSpace current]
  | sent :: rest, current, current_len =>
    if target < count_tokens sent then
      (if current = [] then [] else [joinSpace current]) ++
        (sent :: slice_long_paragraphAux target rest [] 0)
    else if target < current_len + count_tokens sent ∧ current ≠ [] then
      joinSpace current :: slice_long_paragraphAux target rest [sent] (count_tokens sent)
    else
      slice_long_paragraphAux target rest (current ++ [sent]) (current_len + count_tokens sent)

/-- Model of `slice_long_paragraph` (text_slicer.py:95-133), parameterised by the
sentence list that `nltk.sent_tokenize(paragraph)` returns (the tokenizer
itself is an external library, not code of this repository). -/
def slice_long_paragraph (sentences : List Str) (target : Nat) : List Str :=
  slice_long_paragraphAux target sentences [] 0

/-- Model of `is_empty_group` (text_slicer.py:136-145): all paragraphs strip to empty. -/
def is_empty_group (group : List Str) : Bool :=
  group.all (fun para => (pyStrip para).isEmpty)

/-- Model of `is_long_paragraph_group` (text_slicer.py:148-158): exactly one paragraph
and its token count strictly exceeds `max_tokens`. -/
def is_long_paragraph_group (group : List Str) (max_tokens : Nat) : Bool :=
  group.length == 1 && decide (max_tokens < count_tokens (group.headD []))

/-- Model of `join_paragraphs_with_separator` (text_slicer.py:161-171):
`f"\n{separator}\n".join(paragraphs)`. -/
def join_paragraphs_with_separator (paragraphs : List Str) (sep : Str) : Str :=
  match paragraphs with
  | [] => []
  | [p] => p
  | p :: rest => p ++ '\n' :: (sep ++ '\n' :: join_paragraphs_with_separator rest sep)

/-- Scanner for Python `text.split(separator)`: cut at every leftmost
non-overlapping occurrence of `sep`.  `fuel` bounds the scanning steps;
`fuel = text.length` suffices for a non-empty separator (Python raises
`ValueError` on an empty separator, which never occurs in this pipeline). -/
def splitOnSubGo (sep : Str) : Nat → Str → Str → List Str
  | _, acc, [] => [acc.reverse]
  | 0, acc, rest => [acc.reverse ++ rest]
  | fuel + 1, acc, c :: rest =>
    if sep.isPrefixOf (c :: rest) then
      acc.reverse :: splitOnSubGo sep fuel [] ((c :: rest).drop sep.length)
    else splitOnSubGo sep fuel (c :: acc) rest

/-- Python `text.split(separator)`. -/
def pySplit (text sep : Str) : List Str :=
  splitOnSubGo sep text.length [] text

/-- Model of `split_by_separator` (text_slicer.py:174-184):
`[p.strip() for p in text.split(separator)]`. -/
def split_by_separator (text sep : Str) : List Str :=
  (pySplit text sep).map pyStrip

/-- The tagged slice records built by `TextSlicer.process_text`
(text_slicer.py:203-246): `type` is `'empty'`, `'long_paragraph_slice'` or
`'normal'`; `content` is the group (for `empty`/`normal`) or the sub-slice
text (for `long_paragraph_slice`).  `needs_translation` is determined by the
tag. -/
inductive Slice where
  | empty (content : List Str)
  | longParagraphSlice (content : Str)
  | normal (content : List Str)
deriving DecidableEq, Repr

/-- The `needs_translation` field set by `TextSlicer.process_text`. -/
def Slice.needsTranslation : Slice → Bool
  | .empty _ => false
  | .longParagraphSlice _ => true
  | .normal _ => true

/-- Group classification inside `TextSlicer.process_text`
(text_slicer.py:222-244): empty groups, long-paragraph groups (expanded by
`slice_long_paragraph` on the sentences of the single paragraph), and normal
groups. -/
def classifyGroup (tok : Str → List Str) (target : Nat) (g : List Str) : List Slice :=
  if is_empty_group g then [.empty g]
  else if is_long_paragraph_group g target then
    (slice_long_paragraph (tok (g.headD [])) target).map Slice.longParagraphSlice
  else [.normal g]

/-- Model of `TextSlicer.process_text` (text_slicer.py:203-246), parameterised by the
external sentence tokenizer `tok` (nltk's `sent_tokenize`) and the
`target_tokens` configuration of the `TextSlicer` instance. -/
def process_text (tok : Str → List Str) (target_tokens : Nat) (text : Str) : List Slice :=
  ((group_paragraphs (split_into_paragraphs text) target_tokens).map
    (classifyGroup tok target_tokens)).flatten

/-- The output paragraphs `main` (translate_with_ollama.py:193-213) writes for
one slice, with translation replaced by the identity function.  Each written
unit is followed by one `"\n\n"` pair, so it is one output paragraph:
`empty` → `"\n\n"` (a blank paragraph); `long_paragraph_slice` →
`translated.strip() + "\n\n"` (line 206-207, one paragraph *per sub-slice*);
`normal` → `process_normal_group`: join with `"\n{sep}\n"`, translate, then
`split_by_separator`, writing each piece with its own `"\n\n"`. -/
def reconstructSlice (sep : Str) : Slice → List Str
  | .empty _ => [[]]
  | .longParagraphSlice c => [pyStrip c]
  | .normal g => split_by_separator (join_paragraphs_with_separator g sep) sep

/-- The full paragraph sequence `main` writes for a slice list, with
translation replaced by the identity function. -/
def reconstruct (sep : Str) (slices : List Slice) : List Str :=
  (slices.map (reconstructSlice sep)).flatten

/-- Model of `process_long_paragraph_slices` (translate_with_ollama.py:122-133) with
translation replaced by the identity: concatenate the sub-slices with no
separator and write the stripped concatenation once, followed by one
`"\n\n"`.  This helper is defined in the repository but never called:
`main` takes the per-sub-slice write path instead (lines 204-207). -/
def process_long_paragraph_slices (slices : List Str) : List Str :=
  [pyStrip (slices.foldl (· ++ ·) [])]

/-- The three failure shapes that `OllamaClient._handle_response`
(ollama_client.py:86-108) maps to `OllamaAPIError`: an HTTP error status
(carrying status code and body text), an unparseable JSON body, and a parsed
body missing the `"response"` field. -/
inductive ApiFailKind where
  | httpError (status : Nat) (text : Str)
  | jsonDecodeError
  | missingField
deriving DecidableEq, Repr

/-- The typed errors a single request attempt can raise
(ollama_client.py:18-40): `OllamaConnectionError`, `OllamaTimeoutError`,
`OllamaAPIError`. -/
inductive OllamaError where
  | connectionError
  | timeoutError
  | apiError (kind : ApiFailKind)
deriving DecidableEq, Repr

/-- An HTTP response as `_handle_response` observes it: status code, raw body
text, and the parsed JSON body — `none` when `.json()` raises
`JSONDecodeError`, otherwise the optional `"response"` string field and the
optional `"context"` array field (`json_resp.get("context", [])`). -/
structure HttpResponse where
  status : Nat
  text : Str
  body : Option (Option Str × Option (List Nat))
deriving DecidableEq, Repr

/-- The outcome of one `requests.post` call inside `OllamaClient._make_request`
(ollama_client.py:110-137): a response object, or one of the transport
exceptions `requests.exceptions.ConnectionError`, `Timeout`,
`RequestException`. -/
inductive TransportOutcome where
  | response (r : HttpResponse)
  | connectionError
  | timeout
  | requestException
deriving DecidableEq, Repr

/-- Model of `OllamaClient._handle_response` (ollama_client.py:86-108):
`raise_for_status()` raises `requests.exceptions.HTTPError` exactly for
status codes in `[400, 600)`, mapped to `OllamaAPIError` carrying the status
and body text; then `.json()` failure maps to `OllamaAPIError`
(JSON decode); then a missing `"response"` key maps to `OllamaAPIError`
(missing field).  On success the response string is stripped and the context
defaults to `[]`. -/
def handle_response (r : HttpResponse) : Except OllamaError (Str × List Nat) :=
  if 400 ≤ r.status ∧ r.status < 600 then
    .error (.apiError (.httpError r.status r.text))
  else
    match r.body with
    | none => .error (.apiError .jsonDecodeError)
    | some (none, _) => .error (.apiError .missingField)
    | some (some resp, ctx) => .ok (pyStrip resp, ctx.getD [])

/-- Model of `OllamaClient._make_request` (ollama_client.py:110-137):
`ConnectionError` → `OllamaConnectionError`, `Timeout` →
`OllamaTimeoutError`, any other `RequestException` →
`OllamaConnectionError`; a received response goes through
`_handle_response`. -/
def make_request (o : TransportOutcome) : Except OllamaError (Str × List Nat) :=
  match o with
  | .response r => handle_response r
  | .connectionError => .error .connectionError
  | .timeout => .error .timeoutError
  | .requestException => .error .connectionError

/-- Result of `OllamaClient.translate`: the returned pair, or the final
`OllamaClientError` aggregate, which carries the configured retry count and
the last underlying exception (`None` when no attempt was made). -/
inductive TranslateOutcome where
  | ok (response : Str × List Nat)
  | aggregateError (retries : Int) (last : Option OllamaError)
deriving DecidableEq, Repr

/-- The retry loop of `OllamaClient.translate` (ollama_client.py:154-174):
`for attempt in range(1, retries + 1)`.  `req k` is the outcome of the k-th
request attempt (the payload is fixed across attempts, so the backend is
abstracted as a function of the attempt number).  Besides the Python return
value or raised error, the model returns the number of request attempts made
and the list of backoff sleeps performed (`time.sleep(min(2 ** attempt, 30))`
after a failed attempt with `attempt < retries`).  `fuel` is the number of
remaining loop iterations, `retries.toNat` at entry. -/
def translateGo (req : Nat → Except OllamaError (Str × List Nat)) (retries : Int) :
    Nat → Nat → Option OllamaError → TranslateOutcome × Nat × List Nat
  | _, 0, last => (.aggregateError retries last, 0, [])
  | attempt, fuel + 1, _ =>
    match req attempt with
    | .ok v => (.ok v, 1, [])
    | .error e =>
      match fuel with
      | 0 => (.aggregateError retries (some e), 1, [])
      | _ + 1 =>
        let rest := translateGo req retries (attempt + 1) fuel (some e)
        (rest.1, rest.2.1 + 1, min (2 ^ attempt) 30 :: rest.2.2)

/-- Model of `OllamaClient.translate` (ollama_client.py:139-174) for a given per-attempt
backend behaviour `transport` and retry budget `retries` (Python's `retries`
may be negative, hence `Int`; `range(1, retries + 1)` then runs
`retries.toNat` iterations starting at attempt 1 with `last_exception =
None`). -/
def OllamaClient.translate (transport : Nat → TransportOutcome) (retries : Int) :
    TranslateOutcome × Nat × List Nat :=
  translateGo (fun k => make_request (transport k)) retries 1 retries.toNat none

/-! Section: Whitespace-stripping lemmas -/

theorem dropWhile_headQ_false {p : Char → Bool} :
    ∀ (l : Str) {c : Char}, (l.dropWhile p).head? = some c → p c = false := by
  intro l
  induction l with
  | nil => intro c h; simp at h
  | cons a l ih =>
    intro c h
    rw [List.dropWhile_cons] at h
    split at h
    · exact ih h
    · next hpa =>
        have hac : a = c := by simpa using h
        subst hac
        simpa using hpa

theorem getLastQ_dropWhile {p : Char → Bool} :
    ∀ l : Str, l.dropWhile p = [] ∨ (l.dropWhile p).getLast? = l.getLast? := by
  intro l
  induction l with
  | nil => left; rfl
  | cons a l ih =>
    rw [List.dropWhile_cons]
    split
    · rcases ih with h | h
      · left; exact h
      · by_cases hl : l.dropWhile p = []
        · left; exact hl
        · right
          rcases l with _ | ⟨x, l'⟩
          · simp at hl
          · rw [List.getLast?_cons_cons]
            exact h
    · right; rfl

theorem dropWhile_eq_self_of_headQ {p : Char → Bool} (l : Str)
    (h : ∀ c, l.head? = some c → p c = false) : l.dropWhile p = l := by
  cases l with
  | nil => rfl
  | cons a t => rw [List.dropWhile_cons, h a rfl]; simp

theorem pyStrip_headQ_not_space {s : Str} {c : Char}
    (h : (pyStrip s).head? = some c) : pyIsSpace c = false := by
  unfold pyStrip at h
  rw [List.head?_reverse] at h
  rcases getLastQ_dropWhile ((s.dropWhile pyIsSpace).reverse) with hn | he
  · rw [hn] at h; simp at h
  · rw [he, List.getLast?_reverse] at h
    exact dropWhile_headQ_false _ h

theorem pyStrip_getLastQ_not_space {s : Str} {c : Char}
    (h : (pyStrip s).getLast? = some c) : pyIsSpace c = false := by
  unfold pyStrip at h
  rw [List.getLast?_reverse] at h
  exact dropWhile_headQ_false _ h

theorem pyStrip_idem (s : Str) : pyStrip (pyStrip s) = pyStrip s := by
  have hd : (pyStrip s).dropWhile pyIsSpace = pyStrip s :=
    dropWhile_eq_self_of_headQ _ (fun c hc => pyStrip_headQ_not_space hc)
  have hd2 : ((pyStrip s).reverse).dropWhile pyIsSpace = (pyStrip s).reverse :=
    dropWhile_eq_self_of_headQ _ (fun c hc => by
      rw [List.head?_reverse] at hc
      exact pyStrip_getLastQ_not_space hc)
  show ((((pyStrip s).dropWhile pyIsSpace).reverse).dropWhile pyIsSpace).reverse = pyStrip s
  rw [hd, hd2, List.reverse_reverse]

theorem pyStrip_cons_space {c : Char} (h : pyIsSpace c = true) (s : Str) :
    pyStrip (c :: s) = pyStrip s := by
  unfold pyStrip
  rw [List.dropWhile_cons, h]
  simp

theorem pyStrip_append_space {c : Char} (h : pyIsSpace c = true) :
    ∀ s : Str, pyStrip (s ++ [c]) = pyStrip s := by
  intro s
  induction s with
  | nil => simp [pyStrip, List.dropWhile_cons, h]
  | cons a s ih =>
    by_cases ha : pyIsSpace a
    · rw [List.cons_append, pyStrip_cons_space ha, pyStrip_cons_space ha, ih]
    · unfold pyStrip
      simp only [List.cons_append, List.dropWhile_cons, ha, Bool.false_eq_true, if_false]
      have h1 : (a :: (s ++ [c])).reverse = c :: (s.reverse ++ [a]) := by simp
      have h2 : (a :: s).reverse = s.reverse ++ [a] := by simp
      rw [h1, h2, List.dropWhile_cons, h]
      simp

/-! Section: Separator-split lemmas -/

theorem splitOnSubGo_nil (sep : Str) (fuel : Nat) (acc : Str) :
    splitOnSubGo sep fuel acc [] = [acc.reverse] := by
  cases fuel <;> rfl

theorem splitOnSubGo_cons (sep : Str) (fuel : Nat) (acc : Str) (c : Char) (rest : Str) :
    splitOnSubGo sep (fuel + 1) acc (c :: rest) =
      if sep.isPrefixOf (c :: rest) then
        acc.reverse :: splitOnSubGo sep fuel [] ((c :: rest).drop sep.length)
      else splitOnSubGo sep fuel (c :: acc) rest := rfl

theorem isPrefixOf_self_append (l t : Str) : l.isPrefixOf (l ++ t) = true := by
  induction l with
  | nil => simp [List.isPrefixOf]
  | cons a l ih => simp [List.isPrefixOf, ih]

theorem isPrefixOf_cons_false {h a : Char} {tl l : Str} (hne : h ≠ a) :
    (h :: tl).isPrefixOf (a :: l) = false := by
  simp [List.isPrefixOf, hne]

theorem splitOnSubGo_fuel (sep : Str) (hsep : sep ≠ []) :
    ∀ (f₁ : Nat) {f₂ : Nat} {acc t : Str}, t.length ≤ f₁ → t.length ≤ f₂ →
      splitOnSubGo sep f₁ acc t = splitOnSubGo sep f₂ acc t := by
  intro f₁
  induction f₁ with
  | zero =>
    intro f₂ acc t h1 _
    have ht : t = [] := by
      cases t with
      | nil => rfl
      | cons c r => simp at h1
    subst ht
    rw [splitOnSubGo_nil, splitOnSubGo_nil]
  | succ f ih =>
    intro f₂ acc t h1 h2
    cases t with
    | nil => rw [splitOnSubGo_nil, splitOnSubGo_nil]
    | cons c rest =>
      cases f₂ with
      | zero => simp at h2
      | succ f₂' =>
        rw [splitOnSubGo_cons, splitOnSubGo_cons]
        by_cases hp : sep.isPrefixOf (c :: rest)
        · rw [if_pos hp, if_pos hp]
          have hs : 1 ≤ sep.length := by
            cases sep with
            | nil => exact absurd rfl hsep
            | cons _ _ => simp
          have hd : ((c :: rest).drop sep.length).length ≤ f := by
            simp only [List.length_drop, List.length_cons]
            simp only [List.length_cons] at h1
            omega
          have hd2 : ((c :: rest).drop sep.length).length ≤ f₂' := by
            simp only [List.length_drop, List.length_cons]
            simp only [List.length_cons] at h2
            omega
          rw [ih hd hd2]
        · rw [if_neg hp, if_neg hp]
          have hr : rest.length ≤ f := by simp only [List.length_cons] at h1; omega
          have hr2 : rest.length ≤ f₂' := by simp only [List.length_cons] at h2; omega
          rw [ih hr hr2]

theorem splitOnSubGo_no_occ {h : Char} {tl : Str} :
    ∀ (t acc : Str) (fuel : Nat), t.length ≤ fuel → h ∉ t →
      splitOnSubGo (h :: tl) fuel acc t = [acc.reverse ++ t] := by
  intro t
  induction t with
  | nil => intro acc fuel _ _; rw [splitOnSubGo_nil]; simp
  | cons c rest ih =>
    intro acc fuel hf hm
    cases fuel with
    | zero => simp at hf
    | succ f =>
      have hne : h ≠ c := fun he => hm (he ▸ List.mem_cons_self c rest)
      rw [splitOnSubGo_cons, if_neg (by rw [isPrefixOf_cons_false hne]; simp)]
      have hrf : rest.length ≤ f := by simp only [List.length_cons] at hf; omega
      have hrm : h ∉ rest := fun hr => hm (List.mem_cons_of_mem _ hr)
      rw [ih (c :: acc) f hrf hrm]
      simp

theorem splitOnSubGo_cut {h : Char} {tl : Str} :
    ∀ (x t acc : Str), h ∉ x →
      splitOnSubGo (h :: tl) (x ++ (h :: tl) ++ t).length acc (x ++ (h :: tl) ++ t) =
        (acc.reverse ++ x) :: splitOnSubGo (h :: tl) t.length [] t := by
  intro x
  induction x with
  | nil =>
    intro t acc _
    simp only [List.nil_append]
    have e1 : (h :: tl) ++ t = h :: (tl ++ t) := rfl
    have e2 : ((h :: tl) ++ t).length = (tl ++ t).length + 1 := by simp
    rw [e2, e1, splitOnSubGo_cons]
    have hpre : (h :: tl).isPrefixOf (h :: (tl ++ t)) = true := by
      rw [← e1]; exact isPrefixOf_self_append _ _
    rw [if_pos hpre]
    have e3 : (h :: (tl ++ t)).drop (h :: tl).length = t := by
      rw [← e1]; exact List.drop_left _ _
    rw [e3]
    have hfe : t.length ≤ (tl ++ t).length := by simp
    rw [splitOnSubGo_fuel (h :: tl) (by simp) _ hfe (le_refl _)]
    simp
  | cons a x' ih =>
    intro t acc hm
    have hne : h ≠ a := fun he => hm (he ▸ List.mem_cons_self a x')
    have hshape : (a :: x') ++ (h :: tl) ++ t = a :: (x' ++ (h :: tl) ++ t) := by simp
    rw [hshape]
    have hlen : (a :: (x' ++ (h :: tl) ++ t)).length = (x' ++ (h :: tl) ++ t).length + 1 := by
      simp
    rw [hlen, splitOnSubGo_cons, if_neg (by rw [isPrefixOf_cons_false hne]; simp)]
    have hm' : h ∉ x' := fun hr => hm (List.mem_cons_of_mem _ hr)
    rw [ih t (a :: acc) hm']
    simp

theorem pyIsSpace_nl : pyIsSpace '\n' = true := by decide

theorem joinSep_cons_cons (q : Str) (r : Str) (g : List Str) (sep : Str) :
    join_paragraphs_with_separator (q :: r :: g) sep =
      q ++ '\n' :: (sep ++ '\n' :: join_paragraphs_with_separator (r :: g) sep) := rfl

theorem pyStrip_wrap {q : Str} (hq : pyStrip q = q) :
    pyStrip ('\n' :: (q ++ ['\n'])) = q := by
  rw [pyStrip_cons_space pyIsSpace_nl, pyStrip_append_space pyIsSpace_nl, hq]

theorem pySplit_joinSep_tail {h : Char} {tl : Str} (hnl : h ≠ '\n') :
    ∀ g : List Str, g ≠ [] → (∀ q ∈ g, pyStrip q = q) → (∀ q ∈ g, h ∉ q) →
      (pySplit ('\n' :: join_paragraphs_with_separator g (h :: tl)) (h :: tl)).map pyStrip
        = g := by
  intro g
  induction g with
  | nil => intro hne _ _; exact absurd rfl hne
  | cons q g' ih =>
    intro _ hstrip hfree
    cases g' with
    | nil =>
      have hmem : h ∉ '\n' :: join_paragraphs_with_separator [q] (h :: tl) := by
        intro hmm
        rcases List.mem_cons.mp hmm with he | hq
        · exact hnl he
        · exact hfree q (List.mem_cons_self q []) (by simpa [join_paragraphs_with_separator] using hq)
      rw [pySplit, splitOnSubGo_no_occ _ _ _ (le_refl _) hmem]
      simp only [List.map_cons, List.map_nil, List.reverse_nil, List.nil_append]
      rw [show join_paragraphs_with_separator [q] (h :: tl) = q from rfl,
        pyStrip_cons_space pyIsSpace_nl, hstrip q (List.mem_cons_self q [])]
    | cons r g'' =>
      have hshape : '\n' :: join_paragraphs_with_separator (q :: r :: g'') (h :: tl)
          = ('\n' :: (q ++ ['\n'])) ++ (h :: tl)
              ++ ('\n' :: join_paragraphs_with_separator (r :: g'') (h :: tl)) := by
        rw [joinSep_cons_cons]
        simp [List.append_assoc]
      rw [pySplit, hshape]
      have hx : h ∉ '\n' :: (q ++ ['\n']) := by
        intro hmm
        rcases List.mem_cons.mp hmm with he | hq
        · exact hnl he
        · rcases List.mem_append.mp hq with hq1 | hq2
          · exact hfree q (List.mem_cons_self q _) hq1
          · exact hnl (by simpa using hq2)
      rw [splitOnSubGo_cut _ _ _ hx]
      simp only [List.map_cons, List.reverse_nil, List.nil_append]
      rw [pyStrip_wrap (hstrip q (List.mem_cons_self q _))]
      have ih' := ih (by simp)
        (fun x hx' => hstrip x (List.mem_cons_of_mem _ hx'))
        (fun x hx' => hfree x (List.mem_cons_of_mem _ hx'))
      rw [pySplit] at ih'
      rw [ih']

theorem split_join_inverse {h : Char} {tl : Str} (hnl : h ≠ '\n') :
    ∀ g : List Str, g ≠ [] → (∀ q ∈ g, pyStrip q = q) → (∀ q ∈ g, h ∉ q) →
      split_by_separator (join_paragraphs_with_separator g (h :: tl)) (h :: tl) = g := by
  intro g
  induction g with
  | nil => intro hne _ _; exact absurd rfl hne
  | cons q g' _ =>
    intro _ hstrip hfree
    cases g' with
    | nil =>
      have hmem : h ∉ join_paragraphs_with_separator [q] (h :: tl) := by
        intro hmm
        exact hfree q (List.mem_cons_self q [])
          (by simpa [join_paragraphs_with_separator] using hmm)
      rw [split_by_separator, pySplit, splitOnSubGo_no_occ _ _ _ (le_refl _) hmem]
      simp only [List.map_cons, List.map_nil, List.reverse_nil, List.nil_append]
      rw [show join_paragraphs_with_separator [q] (h :: tl) = q from rfl,
        hstrip q (List.mem_cons_self q [])]
    | cons r g'' =>
      have hshape : join_paragraphs_with_separator (q :: r :: g'') (h :: tl)
          = (q ++ ['\n']) ++ (h :: tl)
              ++ ('\n' :: join_paragraphs_with_separator (r :: g'') (h :: tl)) := by
        rw [joinSep_cons_cons]
        simp [List.append_assoc]
      rw [split_by_separator, pySplit, hshape]
      have hx : h ∉ q ++ ['\n'] := by
        intro hmm
        rcases List.mem_append.mp hmm with hq1 | hq2
        · exact hfree q (List.mem_cons_self q _) hq1
        · exact hnl (by simpa using hq2)
      rw [splitOnSubGo_cut _ _ _ hx]
      simp only [List.map_cons, List.reverse_nil, List.nil_append]
      rw [pyStrip_append_space pyIsSpace_nl, hstrip q (List.mem_cons_self q _)]
      have ht := @pySplit_joinSep_tail h tl hnl (r :: g'') (by simp)
        (fun x hx' => hstrip x (List.mem_cons_of_mem _ hx'))
        (fun x hx' => hfree x (List.mem_cons_of_mem _ hx'))
      rw [pySplit] at ht
      rw [ht]

/-! Section: Grouping lemmas -/

theorem group_paragraphsAux_nil (max : Nat) (current : List Str) (len : Nat) :
    group_paragraphsAux max [] current len = if current = [] then [] else [current] := rfl

theorem group_paragraphsAux_cons (max : Nat) (para : Str) (rest current : List Str)
    (len : Nat) :
    group_paragraphsAux max (para :: rest) current len =
      if pyStrip para = [] then
        (if current = [] then [] else [current]) ++
          ([[]] :: group_paragraphsAux max rest [] 0)
      else if max < count_tokens (pyStrip para) then
        (if current = [] then [] else [current]) ++
          ([pyStrip para] :: group_paragraphsAux max rest [] 0)
      else if max < len + count_tokens (pyStrip para) ∧ current ≠ [] then
        current :: group_paragraphsAux max rest [pyStrip para] (count_tokens (pyStrip para))
      else
        group_paragraphsAux max rest (current ++ [pyStrip para])
          (len + count_tokens (pyStrip para)) := rfl

theorem group_paragraphsAux_flatten (max : Nat) :
    ∀ (ps current : List Str) (len : Nat),
      (group_paragraphsAux max ps current len).flatten = current ++ ps.map pyStrip := by
  intro ps
  induction ps with
  | nil =>
    intro current len
    rw [group_paragraphsAux_nil]
    by_cases hc : current = [] <;> simp [hc]
  | cons para rest ih =>
    intro current len
    rw [group_paragraphsAux_cons]
    by_cases h1 : pyStrip para = []
    · rw [if_pos h1]
      by_cases hc : current = [] <;>
        simp [hc, ih, h1, List.flatten_append]
    · rw [if_neg h1]
      by_cases h2 : max < count_tokens (pyStrip para)
      · rw [if_pos h2]
        by_cases hc : current = [] <;>
          simp [hc, ih, List.flatten_append]
      · rw [if_neg h2]
        by_cases h3 : max < len + count_tokens (pyStrip para) ∧ current ≠ []
        · rw [if_pos h3]
          simp [ih]
        · rw [if_neg h3]
          simp [ih]

theorem group_paragraphsAux_shape (max : Nat) (P : Str → Prop) :
    ∀ (ps current : List Str) (len : Nat),
      (∀ q ∈ current, P q) → (∀ p ∈ ps, pyStrip p ≠ [] → P (pyStrip p)) →
      ∀ g ∈ group_paragraphsAux max ps current len,
        g = [[]] ∨ (g ≠ [] ∧ ∀ q ∈ g, P q) := by
  intro ps
  induction ps with
  | nil =>
    intro current len hcur _ g hg
    rw [group_paragraphsAux_nil] at hg
    by_cases hc : current = []
    · simp [hc] at hg
    · simp only [if_neg hc, List.mem_singleton] at hg
      subst hg
      exact Or.inr ⟨hc, hcur⟩
  | cons para rest ih =>
    intro current len hcur hps g hg
    rw [group_paragraphsAux_cons] at hg
    have hps' : ∀ p ∈ rest, pyStrip p ≠ [] → P (pyStrip p) :=
      fun p hp => hps p (List.mem_cons_of_mem _ hp)
    have hflush : ∀ g', g' ∈ (if current = [] then ([] : List (List Str)) else [current]) →
        g' = [[]] ∨ (g' ≠ [] ∧ ∀ q ∈ g', P q) := by
      intro g' hg'
      by_cases hc : current = []
      · simp [hc] at hg'
      · simp only [if_neg hc, List.mem_singleton] at hg'
        subst hg'
        exact Or.inr ⟨hc, hcur⟩
    by_cases h1 : pyStrip para = []
    · rw [if_pos h1] at hg
      rcases List.mem_append.mp hg with hf | hr
      · exact hflush g hf
      · rcases List.mem_cons.mp hr with he | ht
        · exact Or.inl he
        · exact ih [] 0 (by simp) hps' g ht
    · rw [if_neg h1] at hg
      by_cases h2 : max < count_tokens (pyStrip para)
      · rw [if_pos h2] at hg
        rcases List.mem_append.mp hg with hf | hr
        · exact hflush g hf
        · rcases List.mem_cons.mp hr with he | ht
          · subst he
            refine Or.inr ⟨by simp, ?_⟩
            intro q hq
            rw [List.mem_singleton.mp hq]
            exact hps para (List.mem_cons_self _ _) h1
          · exact ih [] 0 (by simp) hps' g ht
      · rw [if_neg h2] at hg
        by_cases h3 : max < len + count_tokens (pyStrip para) ∧ current ≠ []
        · rw [if_pos h3] at hg
          rcases List.mem_cons.mp hg with he | ht
          · subst he
            exact Or.inr ⟨h3.2, hcur⟩
          · refine ih _ _ ?_ hps' g ht
            intro q hq
            rw [List.mem_singleton.mp hq]
            exact hps para (List.mem_cons_self _ _) h1
        · rw [if_neg h3] at hg
          refine ih _ _ ?_ hps' g hg
          intro q hq
          rcases List.mem_append.mp hq with hq1 | hq2
          · exact hcur q hq1
          · rw [List.mem_singleton.mp hq2]
            exact hps para (List.mem_cons_self _ _) h1

theorem group_paragraphsAux_sum (max : Nat) :
    ∀ (ps current : List Str) (len : Nat),
      len = (current.map count_tokens).sum → len ≤ max →
      ∀ g ∈ group_paragraphsAux max ps current len,
        g = [[]] ∨ (∃ q, g = [q] ∧ max < count_tokens q) ∨
          (g.map count_tokens).sum ≤ max := by
  intro ps
  induction ps with
  | nil =>
    intro current len hlen hle g hg
    rw [group_paragraphsAux_nil] at hg
    by_cases hc : current = []
    · simp [hc] at hg
    · simp only [if_neg hc, List.mem_singleton] at hg
      subst hg
      exact Or.inr (Or.inr (hlen ▸ hle))
  | cons para rest ih =>
    intro current len hlen hle g hg
    rw [group_paragraphsAux_cons] at hg
    have hflush : ∀ g', g' ∈ (if current = [] then ([] : List (List Str)) else [current]) →
        (g'.map count_tokens).sum ≤ max := by
      intro g' hg'
      by_cases hc : current = []
      · simp [hc] at hg'
      · simp only [if_neg hc, List.mem_singleton] at hg'
        subst hg'
        exact hlen ▸ hle
    by_cases h1 : pyStrip para = []
    · rw [if_pos h1] at hg
      rcases List.mem_append.mp hg with hf | hr
      · exact Or.inr (Or.inr (hflush g hf))
      · rcases List.mem_cons.mp hr with he | ht
        · exact Or.inl he
        · exact ih [] 0 rfl (Nat.zero_le _) g ht
    · rw [if_neg h1] at hg
      by_cases h2 : max < count_tokens (pyStrip para)
      · rw [if_pos h2] at hg
        rcases List.mem_append.mp hg with hf | hr
        · exact Or.inr (Or.inr (hflush g hf))
        · rcases List.mem_cons.mp hr with he | ht
          · exact Or.inr (Or.inl ⟨pyStrip para, he, h2⟩)
          · exact ih [] 0 rfl (Nat.zero_le _) g ht
      · rw [if_neg h2] at hg
        by_cases h3 : max < len + count_tokens (pyStrip para) ∧ current ≠ []
        · rw [if_pos h3] at hg
          rcases List.mem_cons.mp hg with he | ht
          · subst he
            exact Or.inr (Or.inr (hlen ▸ hle))
          · exact ih _ _ (by simp) (by omega) g ht
        · rw [if_neg h3] at hg
          refine ih _ _ ?_ ?_ g hg
          · simp [hlen]
          · rcases not_and_or.mp h3 with h4 | h4
            · omega
            · have hc : current = [] := not_not.mp h4
              subst hc
              simp at hlen
              omega

/-! Section: Sentence-slicing lemmas -/

theorem slice_long_paragraphAux_nil (target : Nat) (current : List Str) (len : Nat) :
    slice_long_paragraphAux target [] current len =
      if current = [] then [] else [joinSpace current] := rfl

theorem slice_long_paragraphAux_cons (target : Nat) (sent : Str) (rest current : List Str)
    (len : Nat) :
    slice_long_paragraphAux target (sent :: rest) current len =
      if target < count_tokens sent then
        (if current = [] then [] else [joinSpace current]) ++
          (sent :: slice_long_paragraphAux target rest [] 0)
      else if target < len + count_tokens sent ∧ current ≠ [] then
        joinSpace current :: slice_long_paragraphAux target rest [sent] (count_tokens sent)
      else
        slice_long_paragraphAux target rest (current ++ [sent])
          (len + count_tokens sent) := rfl

theorem slice_long_paragraphAux_budget (target : Nat) (Q : Str → Prop) :
    ∀ (sentences current : List Str) (len : Nat),
      (∀ c ∈ current, Q c) → (∀ c ∈ sentences, Q c) →
      len = (current.map count_tokens).sum → len ≤ target →
      ∀ s ∈ slice_long_paragraphAux target sentences current len,
        (Q s ∧ target < count_tokens s) ∨
          ∃ chunk, chunk ≠ [] ∧ (∀ c ∈ chunk, Q c) ∧ s = joinSpace chunk ∧
            (chunk.map count_tokens).sum ≤ target := by
  intro sentences
  induction sentences with
  | nil =>
    intro current len hcur _ hlen hle s hs
    rw [slice_long_paragraphAux_nil] at hs
    by_cases hc : current = []
    · simp [hc] at hs
    · simp only [if_neg hc, List.mem_singleton] at hs
      exact Or.inr ⟨current, hc, hcur, hs, hlen ▸ hle⟩
  | cons sent rest ih =>
    intro current len hcur hsent hlen hle s hs
    rw [slice_long_paragraphAux_cons] at hs
    have hsent' : ∀ c ∈ rest, Q c := fun c hc => hsent c (List.mem_cons_of_mem _ hc)
    have hQ : Q sent := hsent sent (List.mem_cons_self _ _)
    have hflush : ∀ s', s' ∈ (if current = [] then ([] : List Str) else [joinSpace current]) →
        (Q s' ∧ target < count_tokens s') ∨
          ∃ chunk, chunk ≠ [] ∧ (∀ c ∈ chunk, Q c) ∧ s' = joinSpace chunk ∧
            (chunk.map count_tokens).sum ≤ target := by
      intro s' hs'
      by_cases hc : current = []
      · simp [hc] at hs'
      · simp only [if_neg hc, List.mem_singleton] at hs'
        exact Or.inr ⟨current, hc, hcur, hs', hlen ▸ hle⟩
    by_cases h1 : target < count_tokens sent
    · rw [if_pos h1] at hs
      rcases List.mem_append.mp hs with hf | hr
      · exact hflush s hf
      · rcases List.mem_cons.mp hr with he | ht
        · exact Or.inl ⟨he ▸ hQ, he ▸ h1⟩
        · exact ih [] 0 (by simp) hsent' rfl (Nat.zero_le _) s ht
    · rw [if_neg h1] at hs
      by_cases h2 : target < len + count_tokens sent ∧ current ≠ []
      · rw [if_pos h2] at hs
        rcases List.mem_cons.mp hs with he | ht
        · exact Or.inr ⟨current, h2.2, hcur, he, hlen ▸ hle⟩
        · refine ih [sent] (count_tokens sent) ?_ hsent' (by simp) (by omega) s ht
          intro c hc
          rw [List.mem_singleton.mp hc]
          exact hQ
      · rw [if_neg h2] at hs
        refine ih (current ++ [sent]) (len + count_tokens sent) ?_ hsent' ?_ ?_ s hs
        · intro c hc
          rcases List.mem_append.mp hc with hc1 | hc2
          · exact hcur c hc1
          · rw [List.mem_singleton.mp hc2]; exact hQ
        · simp [hlen]
        · rcases not_and_or.mp h2 with h4 | h4
          · omega
          · have hc : current = [] := not_not.mp h4
            subst hc
            simp at hlen
            omega

/-! Section: Retry-loop lemmas -/

theorem translateGo_zero (req : Nat → Except OllamaError (Str × List Nat)) (retries : Int)
    (attempt : Nat) (last : Option OllamaError) :
    translateGo req retries attempt 0 last = (.aggregateError retries last, 0, []) := rfl

theorem translateGo_ok {req : Nat → Except OllamaError (Str × List Nat)} {attempt : Nat}
    {v : Str × List Nat} (retries : Int) (fuel : Nat) (last : Option OllamaError)
    (h : req attempt = .ok v) :
    translateGo req retries attempt (fuel + 1) last = (.ok v, 1, []) := by
  unfold translateGo
  rw [h]

theorem translateGo_err_final {req : Nat → Except OllamaError (Str × List Nat)} {attempt : Nat}
    {e : OllamaError} (retries : Int) (last : Option OllamaError)
    (h : req attempt = .error e) :
    translateGo req retries attempt 1 last = (.aggregateError retries (some e), 1, []) := by
  unfold translateGo
  rw [h]

theorem translateGo_err_step {req : Nat → Except OllamaError (Str × List Nat)} {attempt : Nat}
    {e : OllamaError} (retries : Int) (fuel : Nat) (last : Option OllamaError)
    (h : req attempt = .error e) :
    translateGo req retries attempt (fuel + 2) last =
      ((translateGo req retries (attempt + 1) (fuel + 1) (some e)).1,
        (translateGo req retries (attempt + 1) (fuel + 1) (some e)).2.1 + 1,
        min (2 ^ attempt) 30 ::
          (translateGo req retries (attempt + 1) (fuel + 1) (some e)).2.2) := by
  conv_lhs => unfold translateGo
  rw [h]

theorem range_succ_pow_map (attempt j : Nat) :
    (List.range (j + 1)).map (fun i => min (2 ^ (attempt + i)) 30) =
      min (2 ^ attempt) 30 ::
        (List.range j).map (fun i => min (2 ^ (attempt + 1 + i)) 30) := by
  rw [List.range_succ_eq_map, List.map_cons, List.map_map]
  have hfun : ((fun i => min (2 ^ (attempt + i)) 30) ∘ Nat.succ)
      = fun i => min (2 ^ (attempt + 1 + i)) 30 := by
    funext i
    have hadd : attempt + (i + 1) = attempt + 1 + i := by omega
    simp [Function.comp, hadd]
  rw [hfun]
  simp

theorem translateGo_success (req : Nat → Except OllamaError (Str × List Nat)) (retries : Int) :
    ∀ (j attempt fuel : Nat) (last : Option OllamaError) (v : Str × List Nat),
      j < fuel →
      (∀ i, i < j → ∃ e, req (attempt + i) = .error e) →
      req (attempt + j) = .ok v →
      translateGo req retries attempt fuel last =
        (.ok v, j + 1, (List.range j).map (fun i => min (2 ^ (attempt + i)) 30)) := by
  intro j
  induction j with
  | zero =>
    intro attempt fuel last v hj _ hok
    rw [Nat.add_zero] at hok
    cases fuel with
    | zero => omega
    | succ f => rw [translateGo_ok retries f last hok]; simp
  | succ j ih =>
    intro attempt fuel last v hj hfail hok
    obtain ⟨e, he⟩ := hfail 0 (Nat.succ_pos j)
    rw [Nat.add_zero] at he
    cases fuel with
    | zero => omega
    | succ f =>
      cases f with
      | zero => omega
      | succ f' =>
        rw [translateGo_err_step retries f' last he]
        have ih' := ih (attempt + 1) (f' + 1) (some e) v (by omega)
          (fun i hi => by
            obtain ⟨e', he'⟩ := hfail (i + 1) (by omega)
            exact ⟨e', by rwa [show attempt + (i + 1) = attempt + 1 + i from by omega] at he'⟩)
          (by rwa [show attempt + (j + 1) = attempt + 1 + j from by omega] at hok)
        rw [ih', range_succ_pow_map]

theorem translateGo_allfail (req : Nat → Except OllamaError (Str × List Nat)) (retries : Int) :
    ∀ (fuel attempt : Nat) (last : Option OllamaError) (errs : Nat → OllamaError),
      (∀ i, i < fuel → req (attempt + i) = .error (errs i)) → 1 ≤ fuel →
      translateGo req retries attempt fuel last =
        (.aggregateError retries (some (errs (fuel - 1))), fuel,
          (List.range (fuel - 1)).map (fun i => min (2 ^ (attempt + i)) 30)) := by
  intro fuel
  induction fuel with
  | zero => intro attempt last errs _ h1; omega
  | succ f ih =>
    intro attempt last errs herrs _
    cases f with
    | zero =>
      have he := herrs 0 (by omega)
      rw [Nat.add_zero] at he
      rw [translateGo_err_final retries last he]
      simp
    | succ f' =>
      have he := herrs 0 (by omega)
      rw [Nat.add_zero] at he
      rw [translateGo_err_step retries f' last he]
      have ih' := ih (attempt + 1) (some (errs 0)) (fun i => errs (i + 1))
        (fun i hi => by
          have h' := herrs (i + 1) (by omega)
          rwa [show attempt + (i + 1) = attempt + 1 + i from by omega] at h')
        (by omega)
      rw [ih']
      simp only [Nat.succ_sub_one]
      rw [range_succ_pow_map]

theorem translateGo_attempts_pos (req : Nat → Except OllamaError (Str × List Nat))
    (retries : Int) (fuel attempt : Nat) (last : Option OllamaError) (hf : 1 ≤ fuel) :
    1 ≤ (translateGo req retries attempt fuel last).2.1 := by
  cases fuel with
  | zero => omega
  | succ f =>
    cases hreq : req attempt with
    | ok v => rw [translateGo_ok retries f last hreq]
    | error e =>
      cases f with
      | zero => rw [translateGo_err_final retries last hreq]
      | succ f' => rw [translateGo_err_step retries f' last hreq]; simp

theorem translateGo_sleeps (req : Nat → Except OllamaError (Str × List Nat)) (retries : Int) :
    ∀ (fuel attempt : Nat) (last : Option OllamaError),
      (translateGo req retries attempt fuel last).2.2 =
        (List.range ((translateGo req retries attempt fuel last).2.1 - 1)).map
          (fun i => min (2 ^ (attempt + i)) 30) := by
  intro fuel
  induction fuel with
  | zero => intro attempt last; rw [translateGo_zero]; simp
  | succ f ih =>
    intro attempt last
    cases hreq : req attempt with
    | ok v => rw [translateGo_ok retries f last hreq]; simp
    | error e =>
      cases f with
      | zero => rw [translateGo_err_final retries last hreq]; simp
      | succ f' =>
        rw [translateGo_err_step retries f' last hreq]
        have hpos := translateGo_attempts_pos req retries (f' + 1) (attempt + 1) (some e)
          (by omega)
        obtain ⟨m, hm⟩ : ∃ m, (translateGo req retries (attempt + 1) (f' + 1) (some e)).2.1
            = m + 1 := ⟨_, (Nat.succ_pred_eq_of_pos hpos).symm⟩
        simp only [hm, Nat.add_sub_cancel]
        rw [ih (attempt + 1) (some e), hm]
        simp only [Nat.add_sub_cancel]
        rw [range_succ_pow_map]

/-! Section: process_text classification helpers -/

theorem process_text_mem (tok : Str → List Str) (target : Nat) (text : Str) (s : Slice) :
    s ∈ process_text tok target text ↔
      ∃ g, g ∈ group_paragraphs (split_into_paragraphs text) target ∧
        s ∈ classifyGroup tok target g := by
  unfold process_text
  constructor
  · intro hs
    obtain ⟨l, hl, hsl⟩ := List.mem_flatten.mp hs
    obtain ⟨g, hg, rfl⟩ := List.mem_map.mp hl
    exact ⟨g, hg, hsl⟩
  · rintro ⟨g, hg, hsg⟩
    exact List.mem_flatten.mpr ⟨classifyGroup tok target g, List.mem_map.mpr ⟨g, hg, rfl⟩, hsg⟩

theorem classify_normal_mem {tok : Str → List Str} {target : Nat} {g g' : List Str}
    (hs : Slice.normal g' ∈ classifyGroup tok target g) :
    g' = g ∧ ¬ is_empty_group g = true ∧ ¬ is_long_paragraph_group g target = true := by
  unfold classifyGroup at hs
  by_cases h1 : is_empty_group g
  · rw [if_pos h1] at hs
    simp at hs
  · rw [if_neg h1] at hs
    by_cases h2 : is_long_paragraph_group g target
    · rw [if_pos h2] at hs
      obtain ⟨c, _, hc⟩ := List.mem_map.mp hs
      cases hc
    · rw [if_neg h2] at hs
      have he := List.mem_singleton.mp hs
      injection he with he'
      exact ⟨he', h1, h2⟩

theorem classify_long_mem {tok : Str → List Str} {target : Nat} {g : List Str} {s : Str}
    (hs : Slice.longParagraphSlice s ∈ classifyGroup tok target g) :
    is_long_paragraph_group g target = true ∧
      s ∈ slice_long_paragraph (tok (g.headD [])) target := by
  unfold classifyGroup at hs
  by_cases h1 : is_empty_group g
  · rw [if_pos h1] at hs
    simp at hs
  · rw [if_neg h1] at hs
    by_cases h2 : is_long_paragraph_group g target
    · rw [if_pos h2] at hs
      obtain ⟨c, hc, he⟩ := List.mem_map.mp hs
      injection he with he'
      exact ⟨h2, he' ▸ hc⟩
    · rw [if_neg h2] at hs
      have he := List.mem_singleton.mp hs
      cases he

theorem reconstruct_flatten_of_contrib (tok : Str → List Str) (target : Nat) (sep : Str) :
    ∀ gs : List (List Str),
      (∀ g ∈ gs, ((classifyGroup tok target g).map (reconstructSlice sep)).flatten = g) →
      (((gs.map (classifyGroup tok target)).flatten).map (reconstructSlice sep)).flatten
        = gs.flatten := by
  intro gs
  induction gs with
  | nil => intro _; rfl
  | cons g gs ih =>
    intro h
    simp only [List.map_cons, List.flatten_cons, List.map_append, List.flatten_append]
    rw [h g (List.mem_cons_self _ _), ih (fun g' hg' => h g' (List.mem_cons_of_mem _ hg'))]

/-! Section: Claim theorems -/

/-- C7: for every `Normal` slice group produced by `process_text`, the sum of
`count_tokens` over its constituent paragraphs is at most `target_tokens`;
a single paragraph exceeding the target never appears in a `Normal` group
(it is classified as a long-paragraph group instead). -/
theorem normal_group_token_sum_le (tok : Str → List Str) (target : Nat) (text : Str)
    (g : List Str) (hg : Slice.normal g ∈ process_text tok target text) :
    (g.map count_tokens).sum ≤ target := by
  obtain ⟨g', hg', hcls⟩ := (process_text_mem tok target text _).mp hg
  obtain ⟨rfl, hne, hnl⟩ := classify_normal_mem hcls
  rcases group_paragraphsAux_sum target (split_into_paragraphs text) [] 0 rfl
      (Nat.zero_le _) g hg' with h1 | h2 | h3
  · subst h1
    exact absurd (by decide) hne
  · obtain ⟨q, rfl, hq⟩ := h2
    have : is_long_paragraph_group [q] target = true := by
      simp [is_long_paragraph_group, hq]
    exact absurd this hnl
  · exact h3

/-- Witness for C7 at a concrete document. -/
theorem normal_group_token_sum_le_witness :
    (([chars "Hi."]).map count_tokens).sum ≤ 1024 :=
  normal_group_token_sum_le (fun s => [s]) 1024 (chars "Hi.") [chars "Hi."] (by decide)

/-- C6: a paragraph whose stripped token count is at most `target_tokens`
(including the boundary case of exactly `target_tokens`, since the budget
comparison is strict `>`) lands in some group of `group_paragraphs`, no group
containing it is classified as a long-paragraph group, and the sentence
splitting of `process_text` is applied exactly to the long-paragraph groups. -/
theorem fitting_paragraph_not_sentence_sliced (tok : Str → List Str) (target : Nat)
    (text : Str) (p : Str) (hp : p ∈ split_into_paragraphs text)
    (hfit : count_tokens (pyStrip p) ≤ target) :
    (∃ g, g ∈ group_paragraphs (split_into_paragraphs text) target ∧ pyStrip p ∈ g) ∧
    (∀ g, g ∈ group_paragraphs (split_into_paragraphs text) target → pyStrip p ∈ g →
      is_long_paragraph_group g target = false) ∧
    (∀ s, Slice.longParagraphSlice s ∈ process_text tok target text →
      ∃ g, g ∈ group_paragraphs (split_into_paragraphs text) target ∧
        is_long_paragraph_group g target = true ∧
        s ∈ slice_long_paragraph (tok (g.headD [])) target) := by
  refine ⟨?_, ?_, ?_⟩
  · have hfl : (group_paragraphs (split_into_paragraphs text) target).flatten
        = (split_into_paragraphs text).map pyStrip := by
      unfold group_paragraphs
      rw [group_paragraphsAux_flatten]
      simp
    have hmem : pyStrip p ∈ (group_paragraphs (split_into_paragraphs text) target).flatten := by
      rw [hfl]
      exact List.mem_map_of_mem _ hp
    exact List.mem_flatten.mp hmem
  · intro g hg hpg
    unfold is_long_paragraph_group
    cases g with
    | nil => simp at hpg
    | cons q g' =>
      cases g' with
      | nil =>
        have hq : pyStrip p = q := List.mem_singleton.mp hpg
        subst hq
        simp [Nat.not_lt.mpr hfit]
      | cons r g'' => simp
  · intro s hs
    obtain ⟨g, hg, hcls⟩ := (process_text_mem tok target text _).mp hs
    obtain ⟨hlong, hmem⟩ := classify_long_mem hcls
    exact ⟨g, hg, hlong, hmem⟩

/-- Witness for C6 at a concrete paragraph whose token count equals the target
exactly (8 utf-8 bytes, `target_tokens = 2`). -/
theorem fitting_paragraph_not_sentence_sliced_witness :
    (∃ g, g ∈ group_paragraphs (split_into_paragraphs (chars "12345678")) 2 ∧
        pyStrip (chars "12345678") ∈ g) ∧
    (∀ g, g ∈ group_paragraphs (split_into_paragraphs (chars "12345678")) 2 →
      pyStrip (chars "12345678") ∈ g → is_long_paragraph_group g 2 = false) ∧
    (∀ s, Slice.longParagraphSlice s ∈ process_text (fun s => [s]) 2 (chars "12345678") →
      ∃ g, g ∈ group_paragraphs (split_into_paragraphs (chars "12345678")) 2 ∧
        is_long_paragraph_group g 2 = true ∧
        s ∈ slice_long_paragraph ((fun s => [s]) (g.headD [])) 2) :=
  fitting_paragraph_not_sentence_sliced (fun s => [s]) 2 (chars "12345678")
    (chars "12345678") (by decide) (by decide)

/-- C8 counterexample: with `target_tokens = 2`, the paragraph
`"Go now. Eat it."` (token count 3 > 2) is sentence-sliced into the two
sentences `"Go now."` and `"Eat it."`, each fitting the budget; the greedy
loop accumulates both (their token-count sum is 2 ≤ 2) and emits the single
slice `"Go now. Eat it."`, whose own token count is 3 > 2 — and that slice is
not a single over-budget sentence, refuting the claim that every emitted
slice is at most `target_tokens` except unsplittable single sentences. -/
theorem slice_budget_overflow_cex :
    2 < count_tokens (chars "Go now. Eat it.") ∧
      count_tokens (chars "Go now.") ≤ 2 ∧
      count_tokens (chars "Eat it.") ≤ 2 ∧
      slice_long_paragraph [chars "Go now.", chars "Eat it."] 2
        = [chars "Go now. Eat it."] ∧
      2 < count_tokens (joinSpace [chars "Go now.", chars "Eat it."]) ∧
      chars "Go now. Eat it." ∉ [chars "Go now.", chars "Eat it."] := by
  decide

/-- C8 amended: every slice emitted by `slice_long_paragraph` is either a
single input sentence whose own token count exceeds the budget (emitted
unsplit), or the space-join of a non-empty run of input sentences whose
token-count *sum* is at most the budget; the joined slice's own token count
can exceed the budget by the join spaces and the flooring in `count_tokens`. -/
theorem slice_long_paragraph_chunks (sentences : List Str) (target : Nat) (s : Str)
    (hs : s ∈ slice_long_paragraph sentences target) :
    (s ∈ sentences ∧ target < count_tokens s) ∨
      ∃ chunk, chunk ≠ [] ∧ (∀ c ∈ chunk, c ∈ sentences) ∧ s = joinSpace chunk ∧
        (chunk.map count_tokens).sum ≤ target :=
  slice_long_paragraphAux_budget target (· ∈ sentences) sentences [] 0 (by simp)
    (fun _ hc => hc) rfl (Nat.zero_le _) s hs

/-- Witness for the amended C8 at a concrete sentence list. -/
theorem slice_long_paragraph_chunks_witness :
    (chars "Hi." ∈ [chars "Hi."] ∧ 5 < count_tokens (chars "Hi.")) ∨
      ∃ chunk, chunk ≠ [] ∧ (∀ c ∈ chunk, c ∈ [chars "Hi."]) ∧
        chars "Hi." = joinSpace chunk ∧ (chunk.map count_tokens).sum ≤ 5 :=
  slice_long_paragraph_chunks [chars "Hi."] 5 (chars "Hi.") (by decide)

/-- C5 counterexample: on the empty input the slicer produces ONE slice group
(an `Empty` group, because `re.split` returns `[""]`), not zero, and the
orchestrator writes one blank-line pair (`"\n\n"`) rather than nothing. -/
theorem empty_input_not_zero_groups_cex :
    (process_text (fun s => [s]) 1024 (chars "")).length = 1 ∧
      process_text (fun s => [s]) 1024 (chars "") ≠ [] ∧
      reconstruct (chars "@@") (process_text (fun s => [s]) 1024 (chars "")) = [[]] := by
  decide

/-- C5 amended: for every tokenizer, budget and separator, the empty input
yields exactly one `Empty` slice group, the orchestrator (translation replaced
by identity) writes exactly one blank paragraph (`"\n\n"`), and no slice
requires a model call. -/
theorem empty_input_one_empty_group (tok : Str → List Str) (target : Nat) (sep : Str) :
    process_text tok target [] = [Slice.empty [[]]] ∧
      reconstruct sep (process_text tok target []) = [[]] ∧
      (process_text tok target []).all (fun s => !s.needsTranslation) = true :=
  ⟨rfl, rfl, rfl⟩

/-- C2 (code bug): with `target_tokens = 1`, the single long paragraph
`"Go now. Eat it."` is sentence-sliced into two `LongParagraphSlice` entries;
`main` (translate_with_ollama.py:204-207) translates each and writes each
followed by its own `"\n\n"`, so the ONE original paragraph yields TWO output
paragraphs, while the (never called) helper `process_long_paragraph_slices`
(translate_with_ollama.py:122-133) — the behaviour the claim describes —
would concatenate the sub-slices with no separator and write a single
paragraph `"Go now.Eat it."`. -/
theorem long_paragraph_slices_written_separately :
    process_text
        (fun s => if s = chars "Go now. Eat it." then [chars "Go now.", chars "Eat it."]
          else [s]) 1 (chars "Go now. Eat it.")
      = [Slice.longParagraphSlice (chars "Go now."),
          Slice.longParagraphSlice (chars "Eat it.")] ∧
    reconstruct (chars "@@")
        (process_text
          (fun s => if s = chars "Go now. Eat it." then [chars "Go now.", chars "Eat it."]
            else [s]) 1 (chars "Go now. Eat it."))
      = [chars "Go now.", chars "Eat it."] ∧
    process_long_paragraph_slices [chars "Go now.", chars "Eat it."]
      = [chars "Go now.Eat it."] := by
  decide

/-- C1 counterexample: the document `" a"` (one paragraph with a leading
space) is not reproduced exactly: `group_paragraphs` strips each paragraph,
so the orchestrator (translation replaced by identity) writes back `"a"`,
not `" a"`. -/
theorem round_trip_not_exact_cex :
    reconstruct (chars "@@") (process_text (fun s => [s]) 1024 (chars " a"))
        ≠ split_into_paragraphs (chars " a") ∧
      reconstruct (chars "@@") (process_text (fun s => [s]) 1024 (chars " a"))
        = [chars "a"] ∧
      split_into_paragraphs (chars " a") = [chars " a"] := by
  decide

/-- C1 amended: with translation replaced by the identity function, the
orchestrator's reassembly reproduces the sequence of *stripped* paragraphs
(blank paragraphs become empty strings, kept at their positions, and
non-blank paragraph boundaries are preserved), provided that every
paragraph's stripped token count fits the budget (an over-budget paragraph
takes the long-paragraph path, whose sub-slices `main` writes as separate
output paragraphs — claim C2's bug) and that the separator's first character
occurs neither in the text's stripped paragraphs nor as a newline. -/
theorem round_trip_stripped (tok : Str → List Str) (target : Nat) (text : Str)
    (sh : Char) (st : Str) (sep : Str) (hsep : sep = sh :: st) (hnl : sh ≠ '\n')
    (hfit : ∀ p ∈ split_into_paragraphs text, count_tokens (pyStrip p) ≤ target)
    (hfree : ∀ p ∈ split_into_paragraphs text, sh ∉ pyStrip p) :
    reconstruct sep (process_text tok target text)
      = (split_into_paragraphs text).map pyStrip := by
  subst hsep
  have hshape := group_paragraphsAux_shape target
    (fun q => pyStrip q = q ∧ q ≠ [] ∧ count_tokens q ≤ target ∧ sh ∉ q)
    (split_into_paragraphs text) [] 0 (by simp)
    (fun p hp hne => ⟨pyStrip_idem p, hne, hfit p hp, hfree p hp⟩)
  have hcontrib : ∀ g ∈ group_paragraphs (split_into_paragraphs text) target,
      ((classifyGroup tok target g).map (reconstructSlice (sh :: st))).flatten = g := by
    intro g hg
    rcases hshape g hg with rfl | ⟨hne, hP⟩
    · rfl
    · obtain ⟨q, g', rfl⟩ : ∃ q g', g = q :: g' := by
        cases g with
        | nil => exact absurd rfl hne
        | cons q g' => exact ⟨q, g', rfl⟩
      have hq := hP q (List.mem_cons_self _ _)
      have hemp : ¬ is_empty_group (q :: g') = true := by
        unfold is_empty_group
        rw [List.all_cons, hq.1]
        cases hqe : q with
        | nil => exact absurd hqe hq.2.1
        | cons c q'' => simp
      have hlong : ¬ is_long_paragraph_group (q :: g') target = true := by
        unfold is_long_paragraph_group
        cases g' with
        | nil => simp [Nat.not_lt.mpr hq.2.2.1]
        | cons r g'' => simp
      have hcls : classifyGroup tok target (q :: g') = [Slice.normal (q :: g')] := by
        unfold classifyGroup
        rw [if_neg hemp, if_neg hlong]
      rw [hcls]
      show reconstructSlice (sh :: st) (Slice.normal (q :: g')) ++ [] = q :: g'
      rw [List.append_nil]
      show split_by_separator
        (join_paragraphs_with_separator (q :: g') (sh :: st)) (sh :: st) = q :: g'
      exact split_join_inverse hnl (q :: g') (by simp)
        (fun x hx => (hP x hx).1) (fun x hx => (hP x hx).2.2.2)
  show ((((group_paragraphs (split_into_paragraphs text) target).map
      (classifyGroup tok target)).flatten).map (reconstructSlice (sh :: st))).flatten = _
  rw [reconstruct_flatten_of_contrib tok target (sh :: st) _ hcontrib]
  unfold group_paragraphs
  rw [group_paragraphsAux_flatten]
  simp

/-- Witness for the amended C1 at a concrete two-paragraph document. -/
theorem round_trip_stripped_witness :
    reconstruct (chars "@@") (process_text (fun s => [s]) 1024 (chars "Hi.\n\nBye."))
      = (split_into_paragraphs (chars "Hi.\n\nBye.")).map pyStrip :=
  round_trip_stripped (fun s => [s]) 1024 (chars "Hi.\n\nBye.") '@' (chars "@")
    (chars "@@") (by decide) (by decide) (by decide) (by decide)

/-- C3: with retry budget `N ≥ 1`, if the backend fails attempts `1..k-1` and
succeeds at attempt `k ≤ N`, exactly `k` request attempts occur and the
successful response is returned; if every attempt fails, exactly `N` attempts
occur and `translate` raises the single aggregate `OllamaClientError`
wrapping the last observed underlying error. -/
theorem translate_retry_budget (transport : Nat → TransportOutcome) (N : Int) (hN : 1 ≤ N) :
    (∀ (k : Nat) (v : Str × List Nat), 1 ≤ k → (k : Int) ≤ N →
      (∀ i, 1 ≤ i → i < k → ∃ e, make_request (transport i) = .error e) →
      make_request (transport k) = .ok v →
      (OllamaClient.translate transport N).1 = .ok v ∧
        (OllamaClient.translate transport N).2.1 = k) ∧
    (∀ errs : Nat → OllamaError,
      (∀ i : Nat, 1 ≤ i → (i : Int) ≤ N → make_request (transport i) = .error (errs i)) →
      (OllamaClient.translate transport N).1
          = .aggregateError N (some (errs N.toNat)) ∧
        (OllamaClient.translate transport N).2.1 = N.toNat) := by
  have hNt : 1 ≤ N.toNat := by omega
  constructor
  · intro k v hk hkN hfail hok
    have hj : k - 1 < N.toNat := by omega
    have hrun := translateGo_success (fun i => make_request (transport i)) N (k - 1) 1
      N.toNat none v hj
      (fun i hi => hfail (1 + i) (by omega) (by omega))
      (by rwa [show 1 + (k - 1) = k from by omega])
    unfold OllamaClient.translate
    rw [hrun]
    exact ⟨rfl, by show k - 1 + 1 = k; omega⟩
  · intro errs herrs
    have hrun := translateGo_allfail (fun i => make_request (transport i)) N N.toNat 1 none
      (fun i => errs (1 + i))
      (fun i hi => by
        have h' := herrs (1 + i) (by omega) (by omega)
        exact h')
      hNt
    unfold OllamaClient.translate
    rw [hrun]
    refine ⟨?_, rfl⟩
    show TranslateOutcome.aggregateError N (some (errs (1 + (N.toNat - 1))))
      = TranslateOutcome.aggregateError N (some (errs N.toNat))
    rw [show 1 + (N.toNat - 1) = N.toNat from by omega]

/-- Witness for C3: a backend failing attempts 1 and 2 and succeeding at
attempt 3, with retry budget 3: three attempts, successful result. -/
theorem translate_retry_budget_witness :
    (OllamaClient.translate
        (fun k => if k < 3 then .connectionError
          else .response ⟨200, [], some (some (chars "ok"), some [])⟩) 3).1
      = .ok (chars "ok", []) ∧
      (OllamaClient.translate
        (fun k => if k < 3 then .connectionError
          else .response ⟨200, [], some (some (chars "ok"), some [])⟩) 3).2.1 = 3 := by
  refine (translate_retry_budget
    (fun k => if k < 3 then .connectionError
      else .response ⟨200, [], some (some (chars "ok"), some [])⟩) 3 (by norm_num)).1
    3 (chars "ok", []) (by norm_num) (by norm_num) ?_ rfl
  intro i h1 h2
  refine ⟨.connectionError, ?_⟩
  have hi : i = 1 ∨ i = 2 := by omega
  rcases hi with rfl | rfl <;> rfl

/-- C4: in every run of `translate`, the backoff sleeps are exactly
`min(2^k, 30)` seconds after each failed attempt `k` that is not the final
attempt — one sleep per non-final attempt, in order, and none after the final
attempt (whether it fails or succeeds). -/
theorem translate_backoff (transport : Nat → TransportOutcome) (N : Int) :
    (OllamaClient.translate transport N).2.2 =
      (List.range ((OllamaClient.translate transport N).2.1 - 1)).map
        (fun k => min (2 ^ (k + 1)) 30) := by
  unfold OllamaClient.translate
  rw [translateGo_sleeps]
  have hfun : (fun i : Nat => min (2 ^ (1 + i)) 30) = fun k : Nat => min (2 ^ (k + 1)) 30 := by
    funext i
    rw [Nat.add_comm]
  rw [hfun]

/-- C9 counterexample: an HTTP 304 response (a non-2xx status) with a
parseable body carrying the `"response"` field is NOT classified as
`ApiError`: `raise_for_status` only raises for statuses in `[400, 600)`, so
the call succeeds. -/
theorem non2xx_not_apiError_cex :
    (¬ (200 ≤ 304 ∧ 304 < 300)) ∧
      make_request (.response ⟨304, chars "Not Modified", some (some (chars "hi"), some [])⟩)
        = .ok (chars "hi", []) := by
  constructor
  · decide
  · rfl

/-- C9 amended: every single-attempt failure is classified into exactly one
kind — a status in `[400, 600)` raises `ApiError` carrying the status and
body text (in particular HTTP 500), an unparseable body raises `ApiError`, a
parsed body missing the `"response"` field raises `ApiError`, a transport
`ConnectionError` (or any other `RequestException`) raises
`OllamaConnectionError`, and a deadline `Timeout` raises
`OllamaTimeoutError`. -/
theorem request_error_classification :
    (∀ (s : Nat) (t : Str) (b : Option (Option Str × Option (List Nat))),
      400 ≤ s → s < 600 →
      make_request (.response ⟨s, t, b⟩) = .error (.apiError (.httpError s t))) ∧
    (∀ (s : Nat) (t : Str), ¬ (400 ≤ s ∧ s < 600) →
      make_request (.response ⟨s, t, none⟩) = .error (.apiError .jsonDecodeError)) ∧
    (∀ (s : Nat) (t : Str) (c : Option (List Nat)), ¬ (400 ≤ s ∧ s < 600) →
      make_request (.response ⟨s, t, some (none, c)⟩) = .error (.apiError .missingField)) ∧
    make_request .connectionError = .error .connectionError ∧
    make_request .timeout = .error .timeoutError ∧
    make_request .requestException = .error .connectionError := by
  refine ⟨?_, ?_, ?_, rfl, rfl, rfl⟩
  · intro s t b h4 h6
    show handle_response _ = _
    unfold handle_response
    rw [if_pos ⟨h4, h6⟩]
  · intro s t hne
    show handle_response _ = _
    unfold handle_response
    rw [if_neg hne]
  · intro s t c hne
    show handle_response _ = _
    unfold handle_response
    rw [if_neg hne]

/-- Witness for the amended C9: HTTP 500 is classified as `ApiError` and the
failure surfaces the HTTP status and body text. -/
theorem request_error_classification_witness :
    make_request (.response ⟨500, chars "Internal Server Error", none⟩)
      = .error (.apiError (.httpError 500 (chars "Internal Server Error"))) :=
  request_error_classification.1 500 (chars "Internal Server Error") none
    (by norm_num) (by norm_num)

/-- C10: with a retry budget of zero or negative, `translate` performs no
request attempt at all and immediately raises the aggregate error whose
last underlying error is `None`. -/
theorem translate_nonpositive_budget (transport : Nat → TransportOutcome) (N : Int)
    (hN : N ≤ 0) :
    OllamaClient.translate transport N = (.aggregateError N none, 0, []) := by
  unfold OllamaClient.translate
  rw [Int.toNat_of_nonpos hN, translateGo_zero]

/-- Witness for C10 at retry budget 0. -/
theorem translate_nonpositive_budget_witness :
    OllamaClient.translate (fun _ => TransportOutcome.connectionError) 0
      = (.aggregateError 0 none, 0, []) :=
  translate_nonpositive_budget (fun _ => TransportOutcome.connectionError) 0 (by norm_num)
